import Mathlib

/-!
Verification of the SafetyEye PPE-monitoring core (`core/utils.py`,
`core/rules.py`, and the temporal gates of `app.py`).

Modelling conventions for the shallow embedding:
* Python floats (confidences, thresholds, IoU values, timestamps) are
  modelled by `Rat`; box coordinates are `Int` (the detector casts them
  with `int(...)`).
* A Python detection dict is modelled by the structure `Det`, whose
  optional fields are the keys the core ever reads.  `none` means the
  key is absent (or `None`, where the code treats the two alike).  The
  three numeric-id fallback keys (`cls`/`class`/`class_id`/`category`)
  are collapsed into the single field `cls` holding the first present
  value, and likewise `name`/`class_name`/`label_text` into `name`,
  since the code only ever uses the first key that is present.
* A `box` value that is present but not a 4-number list/tuple is the
  constructor `BoxVal.other`; its `tag` keeps distinct opaque Python
  values distinguishable.
* A Python dict with int keys is an association list in insertion
  order; `dictInsert` is dict assignment (replace in place, else append),
  matching CPython's ordered-dict semantics.
-/

/-- Value stored under the `"box"` key of a detection dict: either a
list/tuple of numbers, or some other Python value (`other`). -/
inductive BoxVal where
  | seq (coords : List Int)
  | other (tag : Nat)
deriving DecidableEq, Repr

/-- Shallow model of a detection dict (`isDict = false` models a
non-dict list entry). -/
structure Det where
  isDict : Bool := true
  label : Option String := none
  cls : Option Int := none
  name : Option String := none
  box : Option BoxVal := none
  conf : Option Rat := none
deriving DecidableEq, Repr

/-- Python `str.lower()` on the ASCII labels the core uses, written by
structural recursion over the character list. -/
def strLower (s : String) : String :=
  String.mk (s.data.map Char.toLower)

/-- `core/rules.py` `safe_label`: lowercase `label` if present, else the
numeric class id rendered as a string, else a lowercased text-like
field, else `""`. -/
def safe_label (det : Det) : String :=
  if !det.isDict then ""
  else match det.label with
    | some s => strLower s
    | none =>
      match det.cls with
      | some n => toString n
      | none =>
        match det.name with
        | some s => strLower s
        | none => ""

/-- `core/rules.py` `has_valid_box`: the entry is a dict and its `box`
key holds a 4-element list/tuple. -/
def has_valid_box (det : Det) : Bool :=
  det.isDict &&
    match det.box with
    | some (BoxVal.seq l) => l.length == 4
    | _ => false

/-- Reading `det["box"]` as a coordinate list.  Only evaluated on
detections that passed `has_valid_box`, where the list has length 4. -/
def boxGet (det : Det) : List Int :=
  match det.box with
  | some (BoxVal.seq l) => l
  | _ => []

/-- `core/utils.py` `iou`.  Box coordinates are read positionally; each
box area is floored at 1 via `max 1`, the intersection is not. -/
def iou (boxA boxB : List Int) : Rat :=
  let xA := max (boxA.getD 0 0) (boxB.getD 0 0)
  let yA := max (boxA.getD 1 0) (boxB.getD 1 0)
  let xB := min (boxA.getD 2 0) (boxB.getD 2 0)
  let yB := min (boxA.getD 3 0) (boxB.getD 3 0)
  let interW := max 0 (xB - xA)
  let interH := max 0 (yB - yA)
  let interArea := interW * interH
  let boxAArea := max 1 (boxA.getD 2 0 - boxA.getD 0 0) * max 1 (boxA.getD 3 0 - boxA.getD 1 0)
  let boxBArea := max 1 (boxB.getD 2 0 - boxB.getD 0 0) * max 1 (boxB.getD 3 0 - boxB.getD 1 0)
  let union := boxAArea + boxBArea - interArea
  if 0 < union then (interArea : Rat) / (union : Rat) else 0

/-- `core/utils.py` `center`: midpoint of the box. -/
def center (box : List Int) : Rat × Rat :=
  (((box.getD 0 0 : Rat) + (box.getD 2 0 : Rat)) / 2,
   ((box.getD 1 0 : Rat) + (box.getD 3 0 : Rat)) / 2)

/-- Label synonym test for persons: `lab in ("person", "people", "0")`. -/
def isPersonLabel (lab : String) : Bool :=
  lab == "person" || lab == "people" || lab == "0"

/-- One entry of the association mapping: the person detection plus the
equipment detections assigned to it. -/
structure PInfo where
  person : Det
  ppe : List Det
deriving DecidableEq, Repr

/-- Python dict with `Int` keys, as an association list in insertion
order. -/
abbrev PMap := List (Int × PInfo)

/-- Python dict assignment `d[k] = v`: replace in place when the key is
present, otherwise append at the end. -/
def dictInsert {α : Type} (k : Int) (v : α) : List (Int × α) → List (Int × α)
  | [] => [(k, v)]
  | p :: rest => if p.1 == k then (k, v) :: rest else p :: dictInsert k v rest

/-- Python `d.get(k, dflt)` on an association list. -/
def dictGetD {α : Type} (d : List (Int × α)) (k : Int) (dflt : α) : α :=
  match d.find? (fun p => p.1 == k) with
  | some p => p.2
  | none => dflt

/-- IoU of one mapping entry's person box against a fixed equipment
box (the value `ov` computed inside the assignment loop). -/
def iouOf (ppeBox : List Int) (p : Int × PInfo) : Rat :=
  iou (boxGet p.2.person) ppeBox

/-- The running-best fold of the IoU assignment loop, from an arbitrary
accumulator `(best_iou, best_idx)`. -/
def bestLoopAux (thresh : Rat) (ppeBox : List Int) (m : PMap) (acc : Rat × Option Int) :
    Rat × Option Int :=
  m.foldl (fun a p =>
    let ov := iouOf ppeBox p
    if a.1 < ov ∧ thresh ≤ ov then (ov, some p.1) else a) acc

/-- The IoU assignment loop of `match_ppe_to_person`: `best_iou` starts
at `0.0`, `best_idx` at `None`. -/
def bestLoop (thresh : Rat) (ppeBox : List Int) (m : PMap) : Rat × Option Int :=
  bestLoopAux thresh ppeBox m (0, none)

/-- Centroid containment test `x1 <= cx <= x2 and y1 <= cy <= y2`. -/
def containsPt (box : List Int) (c : Rat × Rat) : Bool :=
  decide ((box.getD 0 0 : Rat) ≤ c.1) && decide (c.1 ≤ (box.getD 2 0 : Rat)) &&
  decide ((box.getD 1 0 : Rat) ≤ c.2) && decide (c.2 ≤ (box.getD 3 0 : Rat))

/-- `mapping[idx]["ppe"].append(d)`. -/
def appendPPE (m : PMap) (idx : Int) (d : Det) : PMap :=
  m.map (fun p => if p.1 == idx then (p.1, ⟨p.2.person, p.2.ppe ++ [d]⟩) else p)

/-- Body of the per-equipment loop of `match_ppe_to_person`: IoU rule
first; only when it selects nobody, the centroid-containment fallback
(first containing person in iteration order); else the equipment is
dropped. -/
def assignPPE (iou_thresh : Rat) (m : PMap) (ppe_det : Det) : PMap :=
  let ppe_box := boxGet ppe_det
  match (bestLoop iou_thresh ppe_box m).2 with
  | some idx => appendPPE m idx ppe_det
  | none =>
    match m.find? (fun p => containsPt (boxGet p.2.person) (center ppe_box)) with
    | some p => appendPPE m p.1 ppe_det
    | none => m

/-- `core/rules.py` `match_ppe_to_person`: clean, split persons from
other detections, index persons densely from 0, then assign each other
detection by the IoU rule with centroid fallback. -/
def match_ppe_to_person (detections : List Det) (iou_thresh : Rat := 15/100) : PMap :=
  let cleaned := detections.filter has_valid_box
  let persons := cleaned.filter (fun d => isPersonLabel (safe_label d))
  let others := cleaned.filter (fun d => !isPersonLabel (safe_label d))
  let mapping : PMap := persons.enum.map (fun p => ((p.1 : Int), ⟨p.2, []⟩))
  others.foldl (fun m ppe_det => assignPPE iou_thresh m ppe_det) mapping

/-- The four per-person signal booleans of `evaluate_violations`. -/
structure Flags where
  has_helmet : Bool := false
  has_no_helmet : Bool := false
  has_vest : Bool := false
  has_no_vest : Bool := false
deriving DecidableEq, Repr

/-- `float(p.get("conf", 0.0))`. -/
def confGet (p : Det) : Rat :=
  p.conf.getD 0

/-- The if/elif chain of the signal-collection loop, for one equipment
detection. -/
def flagStep (conf_threshold : Rat) (f : Flags) (p : Det) : Flags :=
  let lab := safe_label p
  let c := confGet p
  if lab == "helmet" ∧ conf_threshold ≤ c then { f with has_helmet := true }
  else if lab == "no_helmet" ∧ conf_threshold ≤ c then { f with has_no_helmet := true }
  else if lab == "vest" ∧ conf_threshold ≤ c then { f with has_vest := true }
  else if lab == "no_vest" ∧ conf_threshold ≤ c then { f with has_no_vest := true }
  else f

/-- The signal-collection loop over a person's assigned equipment. -/
def scanFlags (conf_threshold : Rat) (ppe : List Det) : Flags :=
  ppe.foldl (flagStep conf_threshold) {}

/-- `person.get("box", (0, 0, 0, 0))`. -/
def personBoxOf (person : Det) : BoxVal :=
  person.box.getD (BoxVal.seq [0, 0, 0, 0])

/-- One violation record; the nested `details` dict is flattened into
the four signal fields. -/
structure Violation where
  person_idx : Int
  person_box : BoxVal
  missing_helmet : Bool
  missing_vest : Bool
  has_helmet : Bool
  has_no_helmet : Bool
  has_vest : Bool
  has_no_vest : Bool
deriving DecidableEq, Repr

/-- The per-person body of `evaluate_violations`: collect signals and
derive the missing flags (`missing = not has or has_negative`). -/
def evalEntry (conf_threshold : Rat) (idx : Int) (info : PInfo) : Violation :=
  let f := scanFlags conf_threshold info.ppe
  { person_idx := idx
    person_box := personBoxOf info.person
    missing_helmet := !f.has_helmet || f.has_no_helmet
    missing_vest := !f.has_vest || f.has_no_vest
    has_helmet := f.has_helmet
    has_no_helmet := f.has_no_helmet
    has_vest := f.has_vest
    has_no_vest := f.has_no_vest }

/-- The main loop of `evaluate_violations`: a violating person appends
one record to `violations` and its box to `violation_boxes`. -/
def evalLoop (conf_threshold : Rat) : PMap → List Violation × List BoxVal
  | [] => ([], [])
  | (idx, info) :: rest =>
    let v := evalEntry conf_threshold idx info
    let r := evalLoop conf_threshold rest
    if v.missing_helmet || v.missing_vest then (v :: r.1, v.person_box :: r.2)
    else r

/-- One element of a list-shaped `mapping` argument (a dict read via
`item.get("person_idx", 0)` / `item.get("person_box", (0,0,0,0))`). -/
structure Item where
  person_idx : Option Int := none
  person_box : Option BoxVal := none
deriving DecidableEq, Repr

/-- The `mapping` argument of `evaluate_violations`: the expected keyed
dict, or a flat list (the failsafe input shape). -/
inductive MappingInput where
  | dict (m : PMap)
  | list (items : List Item)

/-- The list-to-dict failsafe at the top of `evaluate_violations`: each
item becomes an entry keyed by its `person_idx` (default 0) holding a
person dict with only a `box` and an empty `ppe` list. -/
def normalizeMapping : MappingInput → PMap
  | MappingInput.dict m => m
  | MappingInput.list items =>
    items.foldl (fun tmp item =>
      dictInsert (item.person_idx.getD 0)
        ⟨{ box := some (item.person_box.getD (BoxVal.seq [0, 0, 0, 0])) }, []⟩ tmp) []

/-- `core/rules.py` `evaluate_violations`. -/
def evaluate_violations (mapping : MappingInput) (conf_threshold : Rat := 35/100) :
    List Violation × List BoxVal :=
  evalLoop conf_threshold (normalizeMapping mapping)

/-- `core/rules.py` `detect_violations`: mapping followed by
evaluation, returning only the violations. -/
def detect_violations (detections : List Det) (iou_thresh : Rat := 15/100)
    (conf_threshold : Rat := 35/100) : List Violation :=
  (evaluate_violations (MappingInput.dict (match_ppe_to_person detections iou_thresh))
    conf_threshold).1

/-- `app.py` constant `LOG_COOLDOWN` (seconds of per-person log cooldown). -/
def LOG_COOLDOWN : Rat := 5

/-- `app.py` constant `EMAIL_COOLDOWN` (seconds between email alerts). -/
def EMAIL_COOLDOWN : Rat := 60

/-- `st.session_state.last_log_time`: person id to last accepted log time. -/
abbrev LogState := List (Int × Rat)

/-- Per-person violation-log cooldown gate from the main loop of
`app.py`: `last = last_log_time.get(pid, 0)`; the record is skipped when
`now - last < cooldown`, otherwise it is logged and
`last_log_time[pid] = now` is stored.  Returns (logged, new state). -/
def logStep (cooldown : Rat) (state : LogState) (pid : Int) (now : Rat) : Bool × LogState :=
  let last := dictGetD state pid 0
  if now - last < cooldown then (false, state)
  else (true, dictInsert pid now state)

/-- The per-person cooldown gate run over a sequence of
(person id, time) violation events, collecting the accepted events in
order. -/
def runLogAux (cooldown : Rat) (state : LogState) : List (Int × Rat) → List (Int × Rat)
  | [] => []
  | c :: rest =>
    let s := logStep cooldown state c.1 c.2
    if s.1 then c :: runLogAux cooldown s.2 rest else runLogAux cooldown s.2 rest

/-- The email-alert gate from the main loop of `app.py`: a send is
attempted iff alerts are enabled, the violation list is non-empty, the
four configuration strings are non-empty (Python truthiness) and the
global cooldown has elapsed; `last_email_time` is overwritten with `now`
only when the attempted send reports success (`sendOk` models the
return value of `send_email_alert`).  Returns (attempted, new
`last_email_time`). -/
def emailStep (enable_email : Bool) (violations : List Violation)
    (smtp_host smtp_user smtp_password recipient : String)
    (cooldown last_email_time now : Rat) (sendOk : Bool) : Bool × Rat :=
  if enable_email && !violations.isEmpty && !smtp_host.isEmpty && !smtp_user.isEmpty
      && !smtp_password.isEmpty && !recipient.isEmpty then
    if cooldown ≤ now - last_email_time then
      (true, if sendOk then now else last_email_time)
    else (false, last_email_time)
  else (false, last_email_time)

/-- The frame-rate limiter from the main loop of `app.py`: a frame at
`now` is skipped (and `last_frame_time` kept) when
`now - last_frame_time < min_interval`; otherwise the frame is
processed and `last_frame_time := now`.  Returns (processed, new
`last_frame_time`). -/
def rateStep (min_interval last_frame_time now : Rat) : Bool × Rat :=
  if now - last_frame_time < min_interval then (false, last_frame_time)
  else (true, now)

/-- Number of frames the rate limiter lets through, over a sequence of
observation times. -/
def processedCount (min_interval : Rat) (last_frame_time : Rat) : List Rat → Nat
  | [] => 0
  | t :: rest =>
    let s := rateStep min_interval last_frame_time t
    (if s.1 then 1 else 0) + processedCount min_interval s.2 rest

/-- Person detection of the end-to-end scenario. -/
def personDet : Det :=
  { label := some "person", box := some (BoxVal.seq [10, 10, 110, 210]) }

/-- The `no_vest` detection of the end-to-end scenario. -/
def noVestDet : Det :=
  { label := some "no_vest", box := some (BoxVal.seq [20, 20, 100, 150]), conf := some (8/10) }

/-- The `helmet` detection of the end-to-end scenario. -/
def helmetDet : Det :=
  { label := some "helmet", box := some (BoxVal.seq [10, 10, 60, 60]), conf := some (9/10) }

/-- A `no_helmet` detection at confidence 0.9, for the
conflicting-signal scenario. -/
def noHelmetDet : Det :=
  { label := some "no_helmet", box := some (BoxVal.seq [10, 10, 60, 60]), conf := some (9/10) }

/-- A person carrying both a `helmet` and a `no_helmet` signal at
confidence 0.9. -/
def conflictInfo : PInfo :=
  ⟨personDet, [helmetDet, noHelmetDet]⟩

/-- A malformed detection: its `box` key holds a value that is not a
4-number list/tuple. -/
def badDet : Det :=
  { label := some "helmet", box := some (BoxVal.other 0), conf := some (9/10) }

/-- A person far away from `farHelmetDet` (IoU 0, centroid outside). -/
def farPersonDet : Det :=
  { label := some "person", box := some (BoxVal.seq [0, 0, 10, 10]) }

/-- A helmet detection disjoint from `farPersonDet`. -/
def farHelmetDet : Det :=
  { label := some "helmet", box := some (BoxVal.seq [20, 20, 30, 30]), conf := some (9/10) }

/-- List-shaped mapping item with `person_idx` 3. -/
def itemA : Item :=
  { person_idx := some 3, person_box := some (BoxVal.seq [1, 2, 3, 4]) }

/-- A second list-shaped mapping item with the same `person_idx` 3. -/
def itemB : Item :=
  { person_idx := some 3, person_box := some (BoxVal.seq [5, 6, 7, 8]) }

/-- A list-shaped mapping item with no `person_idx` and no
`person_box`. -/
def itemC : Item := {}

/-- A sample violation record, used to drive the alert gate. -/
def sampleViolation : Violation :=
  { person_idx := 0, person_box := BoxVal.seq [0, 0, 0, 0],
    missing_helmet := true, missing_vest := true,
    has_helmet := false, has_no_helmet := false, has_vest := false, has_no_vest := false }

attribute [local semireducible] Rat.mul Rat.add Rat.sub Rat.inv

lemma evalLoop_snd_eq (conf_threshold : Rat) :
    ∀ l : PMap, (evalLoop conf_threshold l).2 =
      (evalLoop conf_threshold l).1.map Violation.person_box := by
  intro l
  induction l with
  | nil => rfl
  | cons hd tl ih =>
    obtain ⟨idx, info⟩ := hd
    simp only [evalLoop]
    split
    · simp [ih]
    · exact ih

/-- C1: the end-to-end scenario: one person (box (10,10,110,210)), one
`no_vest` (box (20,20,100,150), conf 0.8) and one `helmet` (box
(10,10,60,60), conf 0.9); `match_ppe_to_person` at IoU threshold 0.12
maps person 0 to the ppe list [no_vest, helmet], and
`evaluate_violations` at confidence threshold 0.35 reports exactly one
violation for person 0 with `missing_helmet = false`,
`missing_vest = true`, and `violation_boxes = [(10,10,110,210)]`. -/
theorem spec_C1 :
    match_ppe_to_person [personDet, noVestDet, helmetDet] (12/100) =
      [(0, ⟨personDet, [noVestDet, helmetDet]⟩)] ∧
    evaluate_violations
      (MappingInput.dict (match_ppe_to_person [personDet, noVestDet, helmetDet] (12/100)))
      (35/100) =
      ([{ person_idx := 0, person_box := BoxVal.seq [10, 10, 110, 210],
          missing_helmet := false, missing_vest := true,
          has_helmet := true, has_no_helmet := false, has_vest := false, has_no_vest := true }],
       [BoxVal.seq [10, 10, 110, 210]]) := by
  constructor <;> decide

/-- C4 counterexample: for the degenerate box (0,0,0,0), `iou` of the
box against itself is 0, not 1: two identical boxes do not always give
IoU 1.0, because the intersection area is not floored at 1 the way the
box areas are. -/
theorem spec_C4_counterexample :
    iou [0, 0, 0, 0] [0, 0, 0, 0] = 0 ∧ iou [0, 0, 0, 0] [0, 0, 0, 0] ≠ 1 := by
  constructor <;> decide

/-- C4 amended: `iou` returns 1.0 for two identical non-degenerate
boxes (positive width and height); for two identical degenerate boxes
it returns 0.0 (only the areas are floored at 1, the intersection is
not); and it returns 0.0 for two non-overlapping boxes, degenerate or
not (the area floor keeps the union positive). -/
theorem spec_C4_amended :
    (∀ x1 y1 x2 y2 : Int, x1 < x2 → y1 < y2 →
       iou [x1, y1, x2, y2] [x1, y1, x2, y2] = 1) ∧
    (∀ x1 y1 x2 y2 : Int, x2 ≤ x1 ∨ y2 ≤ y1 →
       iou [x1, y1, x2, y2] [x1, y1, x2, y2] = 0) ∧
    (∀ a1 b1 a2 b2 c1 d1 c2 d2 : Int, a2 ≤ c1 ∨ c2 ≤ a1 ∨ b2 ≤ d1 ∨ d2 ≤ b1 →
       iou [a1, b1, a2, b2] [c1, d1, c2, d2] = 0) := by
  refine ⟨?_, ?_, ?_⟩
  · intro x1 y1 x2 y2 hx hy
    have hw : (1 : Int) ≤ x2 - x1 := by omega
    have hh : (1 : Int) ≤ y2 - y1 := by omega
    have hA : (1 : Int) ≤ (x2 - x1) * (y2 - y1) := by nlinarith
    simp only [iou, List.getD_cons_zero, List.getD_cons_succ, max_self, min_self]
    rw [max_eq_right (by omega : (0 : Int) ≤ x2 - x1),
        max_eq_right (by omega : (0 : Int) ≤ y2 - y1),
        max_eq_right hw, max_eq_right hh]
    have hu : (x2 - x1) * (y2 - y1) + (x2 - x1) * (y2 - y1) - (x2 - x1) * (y2 - y1)
        = (x2 - x1) * (y2 - y1) := by ring
    rw [hu, if_pos (by linarith : (0 : Int) < (x2 - x1) * (y2 - y1))]
    have hpos : (0 : Rat) < (((x2 - x1) * (y2 - y1) : Int) : Rat) := by exact_mod_cast by linarith
    exact div_self (ne_of_gt hpos)
  · intro x1 y1 x2 y2 hdeg
    simp only [iou, List.getD_cons_zero, List.getD_cons_succ, max_self, min_self]
    have hinter : max 0 (x2 - x1) * max 0 (y2 - y1) = 0 := by
      rcases hdeg with h | h
      · rw [max_eq_left (by omega : x2 - x1 ≤ 0)]; ring
      · rw [max_eq_left (by omega : y2 - y1 ≤ 0)]; ring
    rw [hinter]
    have h1 : (1 : Int) ≤ max 1 (x2 - x1) * max 1 (y2 - y1) := by
      have ha := le_max_left (1 : Int) (x2 - x1)
      have hb := le_max_left (1 : Int) (y2 - y1)
      nlinarith
    rw [if_pos (by linarith :
      (0 : Int) < max 1 (x2 - x1) * max 1 (y2 - y1) + max 1 (x2 - x1) * max 1 (y2 - y1) - 0)]
    simp
  · intro a1 b1 a2 b2 c1 d1 c2 d2 hdisj
    simp only [iou, List.getD_cons_zero, List.getD_cons_succ]
    have hinter : max 0 (min a2 c2 - max a1 c1) * max 0 (min b2 d2 - max b1 d1) = 0 := by
      rcases hdisj with h | h | h | h
      · rw [max_eq_left (by
          have h1 := min_le_left a2 c2
          have h2 := le_max_right a1 c1
          linarith : min a2 c2 - max a1 c1 ≤ 0)]
        ring
      · rw [max_eq_left (by
          have h1 := min_le_right a2 c2
          have h2 := le_max_left a1 c1
          linarith : min a2 c2 - max a1 c1 ≤ 0)]
        ring
      · rw [max_eq_left (by
          have h1 := min_le_left b2 d2
          have h2 := le_max_right b1 d1
          linarith : min b2 d2 - max b1 d1 ≤ 0)]
        ring
      · rw [max_eq_left (by
          have h1 := min_le_right b2 d2
          have h2 := le_max_left b1 d1
          linarith : min b2 d2 - max b1 d1 ≤ 0)]
        ring
    rw [hinter]
    have h1 : (1 : Int) ≤ max 1 (a2 - a1) * max 1 (b2 - b1) := by
      have ha := le_max_left (1 : Int) (a2 - a1)
      have hb := le_max_left (1 : Int) (b2 - b1)
      nlinarith
    have h2 : (1 : Int) ≤ max 1 (c2 - c1) * max 1 (d2 - d1) := by
      have ha := le_max_left (1 : Int) (c2 - c1)
      have hb := le_max_left (1 : Int) (d2 - d1)
      nlinarith
    rw [if_pos (by linarith :
      (0 : Int) < max 1 (a2 - a1) * max 1 (b2 - b1) + max 1 (c2 - c1) * max 1 (d2 - d1) - 0)]
    simp

/-- C4 amended, witnessed at the box (0,0,4,6) for the identical case
and at the disjoint pair (0,0,4,6), (10,10,14,16). -/
theorem spec_C4_witness :
    iou [0, 0, 4, 6] [0, 0, 4, 6] = 1 ∧ iou [0, 0, 4, 6] [10, 10, 14, 16] = 0 :=
  ⟨spec_C4_amended.1 0 0 4 6 (by norm_num) (by norm_num),
   spec_C4_amended.2.2 0 0 4 6 10 10 14 16 (by norm_num)⟩

/-- C9: for every mapping input and threshold, the two outputs of
`evaluate_violations` correspond index-wise: `violation_boxes` is the
`person_box` image of `violations`, so the lists have the same length
and agree pointwise at every index. -/
theorem spec_C9 :
    ∀ (mapping : MappingInput) (conf_threshold : Rat),
      (evaluate_violations mapping conf_threshold).2 =
        (evaluate_violations mapping conf_threshold).1.map Violation.person_box ∧
      (evaluate_violations mapping conf_threshold).1.length =
        (evaluate_violations mapping conf_threshold).2.length ∧
      ∀ i : Nat, (evaluate_violations mapping conf_threshold).2[i]? =
        ((evaluate_violations mapping conf_threshold).1[i]?).map Violation.person_box := by
  intro mapping conf_threshold
  have h := evalLoop_snd_eq conf_threshold (normalizeMapping mapping)
  refine ⟨h, ?_, ?_⟩
  · rw [show (evaluate_violations mapping conf_threshold).2 =
        (evaluate_violations mapping conf_threshold).1.map Violation.person_box from h]
    simp
  · intro i
    rw [show (evaluate_violations mapping conf_threshold).2 =
        (evaluate_violations mapping conf_threshold).1.map Violation.person_box from h]
    simp [List.getElem?_map]

/-- C7: the frame-rate limiter skips a frame (leaving the
last-processed timestamp unchanged, so no processing happens for it)
exactly when it arrives within `min_interval` of the last processed
frame, and otherwise processes it and records its time; in particular
at `max_fps = 8` (interval 1/8 s) two frames 0.05 s apart, the first
of them due (which epoch wall-clock times always are at session
start), yield exactly one processed frame. -/
theorem spec_C7 :
    (∀ min_interval last_frame_time now : Rat,
       ((rateStep min_interval last_frame_time now).1 = false ↔
         now - last_frame_time < min_interval) ∧
       (now - last_frame_time < min_interval →
         rateStep min_interval last_frame_time now = (false, last_frame_time)) ∧
       (¬ now - last_frame_time < min_interval →
         rateStep min_interval last_frame_time now = (true, now))) ∧
    (∀ last_frame_time t : Rat, 1/8 ≤ t - last_frame_time →
       processedCount (1/8) last_frame_time [t, t + 1/20] = 1) := by
  constructor
  · intro m l n
    refine ⟨?_, ?_, ?_⟩ <;> unfold rateStep <;> split_ifs with h <;> simp_all
  · intro l t ht
    have h1 : ¬(t - l < 1/8) := not_lt.mpr ht
    have h2 : (t + 1/20 - t : Rat) < 1/8 := by
      have e : (t + 1/20 - t : Rat) = 1/20 := by ring
      rw [e]; norm_num
    have e1 : rateStep (1/8) l t = (true, t) := by
      unfold rateStep; rw [if_neg h1]
    have e2 : rateStep (1/8) t (t + 1/20) = (false, t) := by
      unfold rateStep; rw [if_pos h2]
    show (if (rateStep (1/8) l t).1 = true then 1 else 0)
        + ((if (rateStep (1/8) (rateStep (1/8) l t).2 (t + 1/20)).1 = true then 1 else 0)
          + 0) = 1
    rw [e1]
    show (if (true, t).1 = true then 1 else 0)
        + ((if (rateStep (1/8) t (t + 1/20)).1 = true then 1 else 0) + 0) = 1
    rw [e2]
    simp

/-- C7 witnessed at session start (`last_frame_time = 0`) with frames
at times 1 and 1.05. -/
theorem spec_C7_witness :
    processedCount (1/8) 0 [1, 1 + 1/20] = 1 :=
  spec_C7.2 0 1 (by norm_num)

/-- One category signal for one equipment detection: the label matches
and the confidence clears the threshold. -/
def signal (thresh : Rat) (lab : String) (p : Det) : Bool :=
  safe_label p == lab && decide (thresh ≤ confGet p)

lemma signal_of_not {thresh : Rat} {lab : String} {p : Det}
    (h : ¬((safe_label p == lab) = true ∧ thresh ≤ confGet p)) :
    signal thresh lab p = false := by
  cases hb : (safe_label p == lab) with
  | false => simp [signal, hb]
  | true =>
    have hnc : ¬ thresh ≤ confGet p := fun hc => h ⟨hb, hc⟩
    simp [signal, hb, decide_eq_false hnc]

lemma signal_label_ne {thresh : Rat} {lab lab2 : String} {p : Det}
    (h : safe_label p = lab) (hne : (lab == lab2) = false) :
    signal thresh lab2 p = false := by
  simp [signal, h, hne]

lemma signal_iff {thresh : Rat} {lab : String} {p : Det} :
    signal thresh lab p = true ↔ (safe_label p = lab ∧ thresh ≤ confGet p) := by
  simp [signal]

lemma flagStep_eq (thresh : Rat) (f : Flags) (p : Det) :
    flagStep thresh f p =
      ⟨f.has_helmet || signal thresh "helmet" p,
       f.has_no_helmet || signal thresh "no_helmet" p,
       f.has_vest || signal thresh "vest" p,
       f.has_no_vest || signal thresh "no_vest" p⟩ := by
  obtain ⟨a, b, c, d⟩ := f
  simp only [flagStep]
  split_ifs with h1 h2 h3 h4
  · have hl : safe_label p = "helmet" := eq_of_beq h1.1
    have hs : signal thresh "helmet" p = true := signal_iff.mpr ⟨hl, h1.2⟩
    simp [hs, signal_label_ne hl (by decide : (("helmet" : String) == "no_helmet") = false),
      signal_label_ne hl (by decide : (("helmet" : String) == "vest") = false),
      signal_label_ne hl (by decide : (("helmet" : String) == "no_vest") = false)]
  · have hl : safe_label p = "no_helmet" := eq_of_beq h2.1
    have hs : signal thresh "no_helmet" p = true := signal_iff.mpr ⟨hl, h2.2⟩
    simp [hs, signal_label_ne hl (by decide : (("no_helmet" : String) == "helmet") = false),
      signal_label_ne hl (by decide : (("no_helmet" : String) == "vest") = false),
      signal_label_ne hl (by decide : (("no_helmet" : String) == "no_vest") = false)]
  · have hl : safe_label p = "vest" := eq_of_beq h3.1
    have hs : signal thresh "vest" p = true := signal_iff.mpr ⟨hl, h3.2⟩
    simp [hs, signal_label_ne hl (by decide : (("vest" : String) == "helmet") = false),
      signal_label_ne hl (by decide : (("vest" : String) == "no_helmet") = false),
      signal_label_ne hl (by decide : (("vest" : String) == "no_vest") = false)]
  · have hl : safe_label p = "no_vest" := eq_of_beq h4.1
    have hs : signal thresh "no_vest" p = true := signal_iff.mpr ⟨hl, h4.2⟩
    simp [hs, signal_label_ne hl (by decide : (("no_vest" : String) == "helmet") = false),
      signal_label_ne hl (by decide : (("no_vest" : String) == "no_helmet") = false),
      signal_label_ne hl (by decide : (("no_vest" : String) == "vest") = false)]
  · simp [signal_of_not h1, signal_of_not h2, signal_of_not h3, signal_of_not h4]

lemma foldl_flagStep_eq (thresh : Rat) :
    ∀ (l : List Det) (f : Flags),
      l.foldl (flagStep thresh) f =
        ⟨f.has_helmet || l.any (signal thresh "helmet"),
         f.has_no_helmet || l.any (signal thresh "no_helmet"),
         f.has_vest || l.any (signal thresh "vest"),
         f.has_no_vest || l.any (signal thresh "no_vest")⟩ := by
  intro l
  induction l with
  | nil => intro f; cases f; simp
  | cons p l ih =>
    intro f
    rw [List.foldl_cons, flagStep_eq, ih]
    cases f
    simp [List.any_cons, Bool.or_assoc]

lemma scanFlags_eq (thresh : Rat) (l : List Det) :
    scanFlags thresh l =
      ⟨l.any (signal thresh "helmet"), l.any (signal thresh "no_helmet"),
       l.any (signal thresh "vest"), l.any (signal thresh "no_vest")⟩ := by
  unfold scanFlags
  rw [foldl_flagStep_eq]
  rfl

lemma evalEntry_mem_evalLoop (thresh : Rat) :
    ∀ (m : PMap) (idx : Int) (info : PInfo), (idx, info) ∈ m →
      ((evalEntry thresh idx info).missing_helmet
        || (evalEntry thresh idx info).missing_vest) = true →
      evalEntry thresh idx info ∈ (evalLoop thresh m).1 := by
  intro m
  induction m with
  | nil => intro idx info h; simp at h
  | cons hd tl ih =>
    intro idx info hmem hviol
    obtain ⟨a, b⟩ := hd
    rcases List.mem_cons.mp hmem with heq | htl
    · obtain ⟨h1, h2⟩ := Prod.mk.injEq .. ▸ heq
      subst h1
      subst h2
      simp only [evalLoop]
      rw [if_pos hviol]
      exact List.mem_cons_self _ _
    · have hrec := ih idx info htl hviol
      simp only [evalLoop]
      split
      · exact List.mem_cons_of_mem _ hrec
      · exact hrec

/-- C2: in `evaluate_violations`, a tracked category is missing for a
person exactly when no positive-label detection of the category clears
the confidence threshold among the person's assigned equipment, or
some negative-label detection clears it (negative evidence dominates);
every person whose entry classifies as violating is reported in the
output; and in particular a person with both a `helmet` and a
`no_helmet` detection at confidence 0.9, at threshold 0.35, is
classified `missing_helmet = true` and reported. -/
theorem spec_C2 :
    (∀ (thresh : Rat) (idx : Int) (info : PInfo),
       ((evalEntry thresh idx info).missing_helmet = true ↔
         (¬ ∃ p ∈ info.ppe, safe_label p = "helmet" ∧ thresh ≤ confGet p) ∨
         (∃ p ∈ info.ppe, safe_label p = "no_helmet" ∧ thresh ≤ confGet p)) ∧
       ((evalEntry thresh idx info).missing_vest = true ↔
         (¬ ∃ p ∈ info.ppe, safe_label p = "vest" ∧ thresh ≤ confGet p) ∨
         (∃ p ∈ info.ppe, safe_label p = "no_vest" ∧ thresh ≤ confGet p))) ∧
    (∀ (thresh : Rat) (m : PMap) (idx : Int) (info : PInfo), (idx, info) ∈ m →
       ((evalEntry thresh idx info).missing_helmet
         || (evalEntry thresh idx info).missing_vest) = true →
       evalEntry thresh idx info ∈ (evaluate_violations (MappingInput.dict m) thresh).1) ∧
    ((evalEntry (35/100) 0 conflictInfo).missing_helmet = true ∧
     evalEntry (35/100) 0 conflictInfo ∈
       (evaluate_violations (MappingInput.dict [(0, conflictInfo)]) (35/100)).1) := by
  refine ⟨?_, ?_, ?_⟩
  · intro thresh idx info
    have hs := scanFlags_eq thresh info.ppe
    constructor
    · simp only [evalEntry, hs]
      simp [List.any_eq_true, signal_iff]
    · simp only [evalEntry, hs]
      simp [List.any_eq_true, signal_iff]
  · intro thresh m idx info hmem hviol
    exact evalEntry_mem_evalLoop thresh m idx info hmem hviol
  · constructor <;> decide

/-- C2 witnessed on the conflicting-signal person: it is in the
singleton mapping, classifies as violating, and is reported. -/
theorem spec_C2_witness :
    evalEntry (35/100) 0 conflictInfo ∈
      (evaluate_violations (MappingInput.dict [(0, conflictInfo)]) (35/100)).1 :=
  spec_C2.2.1 (35/100) [(0, conflictInfo)] 0 conflictInfo (by decide) (by decide)

/-- Every detection stored in a mapping entry (person or assigned
equipment) has a valid box. -/
def entryValid (pr : Int × PInfo) : Prop :=
  has_valid_box pr.2.person = true ∧ ∀ p ∈ pr.2.ppe, has_valid_box p = true

lemma appendPPE_valid {m : PMap} {idx : Int} {d : Det}
    (hd : has_valid_box d = true) (hm : ∀ pr ∈ m, entryValid pr) :
    ∀ pr ∈ appendPPE m idx d, entryValid pr := by
  intro pr hpr
  unfold appendPPE at hpr
  rcases List.mem_map.mp hpr with ⟨pr0, hpr0, heq⟩
  by_cases h : (pr0.1 == idx) = true
  · rw [if_pos h] at heq
    rw [← heq]
    refine ⟨(hm pr0 hpr0).1, ?_⟩
    intro p hp
    rcases List.mem_append.mp hp with hp1 | hp2
    · exact (hm pr0 hpr0).2 p hp1
    · rw [List.mem_singleton.mp hp2]
      exact hd
  · rw [if_neg h] at heq
    rw [← heq]
    exact hm pr0 hpr0

lemma assignPPE_valid {thresh : Rat} {m : PMap} {d : Det}
    (hd : has_valid_box d = true) (hm : ∀ pr ∈ m, entryValid pr) :
    ∀ pr ∈ assignPPE thresh m d, entryValid pr := by
  intro pr hpr
  simp only [assignPPE] at hpr
  split at hpr
  · exact appendPPE_valid hd hm pr hpr
  · split at hpr
    · exact appendPPE_valid hd hm pr hpr
    · exact hm pr hpr

lemma foldl_assignPPE_valid (thresh : Rat) :
    ∀ (others : List Det) (m : PMap),
      (∀ e ∈ others, has_valid_box e = true) → (∀ pr ∈ m, entryValid pr) →
      ∀ pr ∈ others.foldl (fun mm e => assignPPE thresh mm e) m, entryValid pr := by
  intro others
  induction others with
  | nil => intro m _ hm; simpa using hm
  | cons e rest ih =>
    intro m he hm
    rw [List.foldl_cons]
    exact ih (assignPPE thresh m e) (fun x hx => he x (List.mem_cons_of_mem _ hx))
      (assignPPE_valid (he e (List.mem_cons_self _ _)) hm)

lemma match_ppe_valid (detections : List Det) (iou_thresh : Rat) :
    ∀ pr ∈ match_ppe_to_person detections iou_thresh, entryValid pr := by
  apply foldl_assignPPE_valid
  · intro e he
    exact (List.mem_filter.mp (List.mem_filter.mp he).1).2
  · intro pr hpr
    rcases List.mem_map.mp hpr with ⟨q, hq, heq⟩
    have hq2 : q.2 ∈ (detections.filter has_valid_box).filter
        (fun d => isPersonLabel (safe_label d)) :=
      List.getElem?_mem (List.mem_enum_iff_getElem?.mp hq)
    refine ⟨?_, ?_⟩
    · rw [← heq]
      exact (List.mem_filter.mp (List.mem_filter.mp hq2).1).2
    · rw [← heq]
      intro p hp
      simp at hp

/-- C8: `match_ppe_to_person` silently discards malformed detections
before splitting: it computes the same mapping as on the pre-filtered
input, and a detection without a valid 4-coordinate box never appears
as any person entry nor in any assigned equipment list (the embedding
is a total function, so no malformed input raises). -/
theorem spec_C8 :
    ∀ (detections : List Det) (iou_thresh : Rat),
      match_ppe_to_person detections iou_thresh =
        match_ppe_to_person (detections.filter has_valid_box) iou_thresh ∧
      ∀ d ∈ detections, has_valid_box d = false →
        ∀ pr ∈ match_ppe_to_person detections iou_thresh,
          pr.2.person ≠ d ∧ d ∉ pr.2.ppe := by
  intro detections iou_thresh
  constructor
  · simp [match_ppe_to_person, List.filter_filter]
  · intro d _ hdbad pr hpr
    have hv := match_ppe_valid detections iou_thresh pr hpr
    unfold entryValid at hv
    obtain ⟨hv1, hv2⟩ := hv
    constructor
    · intro heq
      rw [heq] at hv1
      rw [hv1] at hdbad
      simp at hdbad
    · intro hmem
      have hvd := hv2 d hmem
      rw [hvd] at hdbad
      simp at hdbad

/-- C8 witnessed on a detection whose `box` key is not a sequence,
alongside a well-formed person: the malformed detection is not the
person entry and is in no equipment list. -/
theorem spec_C8_witness :
    has_valid_box badDet = false ∧
    (0, (⟨personDet, []⟩ : PInfo)) ∈ match_ppe_to_person [badDet, personDet] (15/100) ∧
    ((0, (⟨personDet, []⟩ : PInfo)).2.person ≠ badDet ∧
      badDet ∉ (0, (⟨personDet, []⟩ : PInfo)).2.ppe) :=
  ⟨by decide, by decide,
   (spec_C8 [badDet, personDet] (15/100)).2 badDet (by decide) (by decide)
     (0, ⟨personDet, []⟩) (by decide)⟩

lemma mem_dictInsert {α : Type} (k : Int) (v : α) :
    ∀ (d : List (Int × α)) (x : Int × α), x ∈ dictInsert k v d → x = (k, v) ∨ x ∈ d := by
  intro d
  induction d with
  | nil =>
    intro x hx
    simp only [dictInsert, List.mem_singleton] at hx
    exact Or.inl hx
  | cons p rest ih =>
    intro x hx
    simp only [dictInsert] at hx
    by_cases h : (p.1 == k) = true
    · rw [if_pos h] at hx
      rcases List.mem_cons.mp hx with h1 | h2
      · exact Or.inl h1
      · exact Or.inr (List.mem_cons_of_mem _ h2)
    · rw [if_neg h] at hx
      rcases List.mem_cons.mp hx with h1 | h2
      · exact Or.inr (h1 ▸ List.mem_cons_self _ _)
      · rcases ih x h2 with h3 | h4
        · exact Or.inl h3
        · exact Or.inr (List.mem_cons_of_mem _ h4)

lemma dictInsert_ne_nil {α : Type} (k : Int) (v : α) (d : List (Int × α)) :
    dictInsert k v d ≠ [] := by
  cases d with
  | nil => simp [dictInsert]
  | cons p rest =>
    simp only [dictInsert]
    split_ifs <;> simp

lemma keys_dictInsert {α : Type} (k : Int) (v : α) :
    ∀ (d : List (Int × α)) (k' : Int),
      k' ∈ (dictInsert k v d).map Prod.fst ↔ k' = k ∨ k' ∈ d.map Prod.fst := by
  intro d
  induction d with
  | nil => intro k'; simp [dictInsert]
  | cons p rest ih =>
    intro k'
    simp only [dictInsert]
    by_cases h : (p.1 == k) = true
    · rw [if_pos h]
      have hk : p.1 = k := eq_of_beq h
      simp [hk]
    · rw [if_neg h]
      simp [ih k']
      tauto

lemma keys_nodup_dictInsert {α : Type} (k : Int) (v : α) :
    ∀ d : List (Int × α), (d.map Prod.fst).Nodup → ((dictInsert k v d).map Prod.fst).Nodup := by
  intro d
  induction d with
  | nil => intro _; simp [dictInsert]
  | cons p rest ih =>
    intro hnd
    simp only [List.map_cons, List.nodup_cons] at hnd
    simp only [dictInsert]
    by_cases h : (p.1 == k) = true
    · rw [if_pos h]
      have hk : p.1 = k := eq_of_beq h
      simp only [List.map_cons, List.nodup_cons]
      exact ⟨by rw [← hk]; exact hnd.1, hnd.2⟩
    · rw [if_neg h]
      simp only [List.map_cons, List.nodup_cons]
      refine ⟨?_, ih hnd.2⟩
      intro hmem
      rcases (keys_dictInsert k v rest p.1).mp hmem with h1 | h2
      · exact h (by simp [h1])
      · exact hnd.1 h2

lemma normList_ppe_aux :
    ∀ (items : List Item) (tmp : PMap),
      (∀ pr ∈ tmp, pr.2.ppe = []) →
      ∀ pr ∈ items.foldl (fun t item =>
          dictInsert (item.person_idx.getD 0)
            ⟨{ box := some (item.person_box.getD (BoxVal.seq [0, 0, 0, 0])) }, []⟩ t) tmp,
        pr.2.ppe = [] := by
  intro items
  induction items with
  | nil => intro tmp h; simpa using h
  | cons it rest ih =>
    intro tmp h
    rw [List.foldl_cons]
    apply ih
    intro pr hpr
    rcases mem_dictInsert _ _ tmp pr hpr with h1 | h2
    · rw [h1]
    · exact h pr h2

lemma normList_keys_aux :
    ∀ (items : List Item) (tmp : PMap) (k : Int),
      k ∈ (items.foldl (fun t item =>
          dictInsert (item.person_idx.getD 0)
            ⟨{ box := some (item.person_box.getD (BoxVal.seq [0, 0, 0, 0])) }, []⟩ t)
          tmp).map Prod.fst ↔
        k ∈ tmp.map Prod.fst ∨ ∃ it ∈ items, it.person_idx.getD 0 = k := by
  intro items
  induction items with
  | nil => intro tmp k; simp
  | cons it rest ih =>
    intro tmp k
    rw [List.foldl_cons, ih, keys_dictInsert]
    simp
    tauto

lemma normList_nodup_aux :
    ∀ (items : List Item) (tmp : PMap),
      (tmp.map Prod.fst).Nodup →
      ((items.foldl (fun t item =>
          dictInsert (item.person_idx.getD 0)
            ⟨{ box := some (item.person_box.getD (BoxVal.seq [0, 0, 0, 0])) }, []⟩ t)
          tmp).map Prod.fst).Nodup := by
  intro items
  induction items with
  | nil => intro tmp h; simpa using h
  | cons it rest ih =>
    intro tmp h
    rw [List.foldl_cons]
    exact ih _ (keys_nodup_dictInsert _ _ _ h)

lemma normList_ne_nil_aux :
    ∀ (items : List Item) (tmp : PMap), tmp ≠ [] →
      items.foldl (fun t item =>
          dictInsert (item.person_idx.getD 0)
            ⟨{ box := some (item.person_box.getD (BoxVal.seq [0, 0, 0, 0])) }, []⟩ t)
        tmp ≠ [] := by
  intro items
  induction items with
  | nil => intro tmp h; simpa using h
  | cons it rest ih =>
    intro tmp _
    rw [List.foldl_cons]
    exact ih _ (dictInsert_ne_nil _ _ _)

lemma evalEntry_empty_ppe (thresh : Rat) (idx : Int) (info : PInfo) (h : info.ppe = []) :
    (evalEntry thresh idx info).missing_helmet = true ∧
    (evalEntry thresh idx info).missing_vest = true ∧
    (evalEntry thresh idx info).has_helmet = false ∧
    (evalEntry thresh idx info).has_no_helmet = false ∧
    (evalEntry thresh idx info).has_vest = false ∧
    (evalEntry thresh idx info).has_no_vest = false := by
  simp [evalEntry, scanFlags, h]

lemma evalLoop_all_empty_ppe (thresh : Rat) :
    ∀ l : PMap, (∀ pr ∈ l, pr.2.ppe = []) →
      (evalLoop thresh l).1 = l.map (fun pr => evalEntry thresh pr.1 pr.2) := by
  intro l
  induction l with
  | nil => intro _; rfl
  | cons hd tl ih =>
    intro h
    obtain ⟨a, b⟩ := hd
    have hb : b.ppe = [] := h (a, b) (List.mem_cons_self _ _)
    have hcond : ((evalEntry thresh a b).missing_helmet
        || (evalEntry thresh a b).missing_vest) = true := by
      simp [(evalEntry_empty_ppe thresh a b hb).1]
    simp only [evalLoop]
    rw [if_pos hcond]
    simp only [List.map_cons]
    rw [← ih (fun pr hpr => h pr (List.mem_cons_of_mem _ hpr))]

/-- C10: when `evaluate_violations` receives its mapping as a flat
list, the reconstructed mapping gives every person an empty ppe list,
so every reconstructed entry is classified with both categories
missing (all four raw signals false) and contributes one violation
(non-empty input yields non-empty output); items sharing the same
`person_idx` (missing `person_idx` defaulting to 0) collapse into a
single entry: the reconstructed keys are exactly the item indices,
without duplicates. -/
theorem spec_C10 :
    (∀ (items : List Item) (pr : Int × PInfo),
       pr ∈ normalizeMapping (MappingInput.list items) → pr.2.ppe = []) ∧
    (∀ (items : List Item) (thresh : Rat),
       (evaluate_violations (MappingInput.list items) thresh).1 =
         (normalizeMapping (MappingInput.list items)).map
           (fun pr => evalEntry thresh pr.1 pr.2)) ∧
    (∀ (items : List Item) (thresh : Rat) (v : Violation),
       v ∈ (evaluate_violations (MappingInput.list items) thresh).1 →
       v.missing_helmet = true ∧ v.missing_vest = true ∧
       v.has_helmet = false ∧ v.has_no_helmet = false ∧
       v.has_vest = false ∧ v.has_no_vest = false) ∧
    (∀ (items : List Item) (thresh : Rat), items ≠ [] →
       (evaluate_violations (MappingInput.list items) thresh).1 ≠ []) ∧
    (∀ items : List Item,
       ((normalizeMapping (MappingInput.list items)).map Prod.fst).Nodup ∧
       ∀ k : Int, k ∈ (normalizeMapping (MappingInput.list items)).map Prod.fst ↔
         ∃ it ∈ items, it.person_idx.getD 0 = k) := by
  have hppe : ∀ (items : List Item) (pr : Int × PInfo),
      pr ∈ normalizeMapping (MappingInput.list items) → pr.2.ppe = [] := by
    intro items pr hpr
    exact normList_ppe_aux items [] (by simp) pr hpr
  have hmapeq : ∀ (items : List Item) (thresh : Rat),
      (evaluate_violations (MappingInput.list items) thresh).1 =
        (normalizeMapping (MappingInput.list items)).map
          (fun pr => evalEntry thresh pr.1 pr.2) := by
    intro items thresh
    exact evalLoop_all_empty_ppe thresh _ (hppe items)
  refine ⟨hppe, hmapeq, ?_, ?_, ?_⟩
  · intro items thresh v hv
    rw [hmapeq items thresh] at hv
    rcases List.mem_map.mp hv with ⟨pr, hpr, heq⟩
    rw [← heq]
    exact evalEntry_empty_ppe thresh pr.1 pr.2 (hppe items pr hpr)
  · intro items thresh hne
    rw [hmapeq items thresh]
    cases items with
    | nil => exact absurd rfl hne
    | cons it rest =>
      have h2 : normalizeMapping (MappingInput.list (it :: rest)) ≠ [] :=
        normList_ne_nil_aux rest _ (dictInsert_ne_nil _ _ _)
      simp only [ne_eq, List.map_eq_nil_iff]
      exact h2
  · intro items
    constructor
    · exact normList_nodup_aux items [] (by simp)
    · intro k
      simpa using normList_keys_aux items [] k

/-- C10 witnessed on three list items, two sharing `person_idx` 3 and
one lacking the key (so defaulting to 0): the normalized entry for 3
has empty ppe, the output violations are all-missing, non-empty, and
keyed by exactly the two distinct indices. -/
theorem spec_C10_witness :
    ((3, (⟨{ box := some (BoxVal.seq [5, 6, 7, 8]) }, []⟩ : PInfo)) ∈
        normalizeMapping (MappingInput.list [itemA, itemB, itemC]) →
      (3, (⟨{ box := some (BoxVal.seq [5, 6, 7, 8]) }, []⟩ : PInfo)).2.ppe = []) ∧
    ((evaluate_violations (MappingInput.list [itemA, itemB, itemC]) (35/100)).1 ≠ []) ∧
    (evalEntry (35/100) 3 ⟨{ box := some (BoxVal.seq [5, 6, 7, 8]) }, []⟩).missing_helmet
        = true :=
  ⟨fun h => spec_C10.1 [itemA, itemB, itemC] _ h,
   spec_C10.2.2.2.1 [itemA, itemB, itemC] (35/100) (by decide),
   (spec_C10.2.2.1 [itemA, itemB, itemC] (35/100)
     (evalEntry (35/100) 3 ⟨{ box := some (BoxVal.seq [5, 6, 7, 8]) }, []⟩)
     (by decide)).1⟩

lemma dictGetD_insert_self {α : Type} (k : Int) (v : α) (dflt : α) :
    ∀ d : List (Int × α), dictGetD (dictInsert k v d) k dflt = v := by
  intro d
  induction d with
  | nil => simp [dictInsert, dictGetD]
  | cons p rest ih =>
    simp only [dictInsert]
    by_cases h : (p.1 == k) = true
    · rw [if_pos h]
      simp [dictGetD]
    · rw [if_neg h]
      unfold dictGetD at ih ⊢
      rw [List.find?_cons_of_neg _ (by simpa using h)]
      exact ih

lemma dictGetD_insert_other {α : Type} (k k' : Int) (v : α) (dflt : α) (hne : k' ≠ k) :
    ∀ d : List (Int × α), dictGetD (dictInsert k v d) k' dflt = dictGetD d k' dflt := by
  intro d
  induction d with
  | nil =>
    unfold dictInsert dictGetD
    rw [List.find?_cons_of_neg _ (by simpa using fun he => hne he.symm), List.find?_nil]
  | cons p rest ih =>
    simp only [dictInsert]
    by_cases h : (p.1 == k) = true
    · rw [if_pos h]
      have hk : p.1 = k := eq_of_beq h
      unfold dictGetD
      rw [List.find?_cons_of_neg _ (by simpa using fun he => hne he.symm),
        List.find?_cons_of_neg _ (by simpa using fun he => hne (by rw [← he, hk]))]
    · rw [if_neg h]
      unfold dictGetD at ih ⊢
      by_cases h2 : (p.1 == k') = true
      · have e1 : List.find? (fun q => q.1 == k') (p :: dictInsert k v rest) = some p :=
          List.find?_cons_of_pos _ h2
        have e2 : List.find? (fun q => q.1 == k') (p :: rest) = some p :=
          List.find?_cons_of_pos _ h2
        rw [e1, e2]
      · have e1 : List.find? (fun q => q.1 == k') (p :: dictInsert k v rest) =
            List.find? (fun q => q.1 == k') (dictInsert k v rest) :=
          List.find?_cons_of_neg _ (by simpa using h2)
        have e2 : List.find? (fun q => q.1 == k') (p :: rest) =
            List.find? (fun q => q.1 == k') rest :=
          List.find?_cons_of_neg _ (by simpa using h2)
        rw [e1, e2]
        exact ih

lemma runLog_chain_aux (cooldown : Rat) (pid : Int) :
    ∀ (calls : List (Int × Rat)) (st : LogState),
      List.Chain' (fun a b => cooldown ≤ b.2 - a.2)
        ((pid, dictGetD st pid 0) ::
          (runLogAux cooldown st calls).filter (fun c => c.1 == pid)) := by
  intro calls
  induction calls with
  | nil => intro st; simp [runLogAux]
  | cons c rest ih =>
    intro st
    obtain ⟨q, tm⟩ := c
    simp only [runLogAux]
    by_cases hacc : tm - dictGetD st q 0 < cooldown
    · have hstep : logStep cooldown st q tm = (false, st) := by
        unfold logStep; rw [if_pos hacc]
      have hc : (logStep cooldown st q tm).1 = false := by rw [hstep]
      have hs2 : (logStep cooldown st q tm).2 = st := by rw [hstep]
      rw [hc, hs2, if_neg (by simp : ¬(false = true))]
      exact ih st
    · have hstep : logStep cooldown st q tm = (true, dictInsert q tm st) := by
        unfold logStep; rw [if_neg hacc]
      have hc : (logStep cooldown st q tm).1 = true := by rw [hstep]
      have hs2 : (logStep cooldown st q tm).2 = dictInsert q tm st := by rw [hstep]
      rw [hc, hs2, if_pos rfl]
      by_cases hq : (q == pid) = true
      · have hqe : q = pid := eq_of_beq hq
        subst hqe
        rw [List.filter_cons_of_pos (by simp)]
        rw [List.chain'_cons]
        refine ⟨by simpa using not_lt.mp hacc, ?_⟩
        have h2 := ih (dictInsert q tm st)
        rw [dictGetD_insert_self q tm 0 st] at h2
        exact h2
      · rw [List.filter_cons_of_neg (by simpa using hq)]
        have h2 := ih (dictInsert q tm st)
        rw [dictGetD_insert_other q pid tm 0 (fun he => hq (by simp [he])) st] at h2
        exact h2

/-- C5: the per-person log cooldown of the main loop accepts exactly
when `now` is at least `cooldown` past the stored timestamp, a missing
entry counting as timestamp 0; acceptance overwrites the person's
entry with `now` and rejection leaves the state unchanged.  For
epoch-scale times (`cooldown ≤ now`, always true of `time.time()`)
this is equivalent to the spec's reading: accept iff no prior
timestamp exists or the gap has elapsed.  With cooldown 5, calls for
one person at t, t+2, t+6 accept, reject, accept; and consecutive
accepted records of one person are always at least `cooldown` apart. -/
theorem spec_C5 :
    (∀ (cooldown : Rat) (st : LogState) (pid : Int) (now : Rat),
       ((logStep cooldown st pid now).1 = true ↔ cooldown ≤ now - dictGetD st pid 0) ∧
       ((logStep cooldown st pid now).1 = true →
         (logStep cooldown st pid now).2 = dictInsert pid now st) ∧
       ((logStep cooldown st pid now).1 = false → (logStep cooldown st pid now).2 = st) ∧
       (cooldown ≤ now →
         ((logStep cooldown st pid now).1 = true ↔
           st.find? (fun p => p.1 == pid) = none ∨
             cooldown ≤ now - dictGetD st pid 0))) ∧
    (∀ t : Rat, 5 ≤ t →
       (logStep 5 [] 2 t).1 = true ∧
       (logStep 5 (logStep 5 [] 2 t).2 2 (t + 2)).1 = false ∧
       (logStep 5 (logStep 5 (logStep 5 [] 2 t).2 2 (t + 2)).2 2 (t + 6)).1 = true) ∧
    (∀ (cooldown : Rat) (calls : List (Int × Rat)) (pid : Int),
       List.Chain' (fun a b => cooldown ≤ b.2 - a.2)
         ((runLogAux cooldown [] calls).filter (fun c => c.1 == pid))) := by
  refine ⟨?_, ?_, ?_⟩
  · intro cooldown st pid now
    by_cases h : now - dictGetD st pid 0 < cooldown
    · have hstep : logStep cooldown st pid now = (false, st) := by
        unfold logStep; rw [if_pos h]
      rw [hstep]
      refine ⟨?_, ?_, ?_, ?_⟩
      · simp [not_le.mpr h]
      · intro hh; simp at hh
      · intro _; rfl
      · intro hcn
        constructor
        · intro hh; simp at hh
        · intro hor
          rcases hor with hn | hg
          · have hg0 : dictGetD st pid 0 = 0 := by unfold dictGetD; rw [hn]
            rw [hg0] at h
            exact absurd hcn (by linarith)
          · exact absurd hg (not_le.mpr h)
    · have hstep : logStep cooldown st pid now = (true, dictInsert pid now st) := by
        unfold logStep; rw [if_neg h]
      rw [hstep]
      refine ⟨?_, ?_, ?_, ?_⟩
      · simp [not_lt.mp h]
      · intro _; rfl
      · intro hh; simp at hh
      · intro _
        simp [not_lt.mp h]
  · intro t ht
    have h1 : ¬(t - dictGetD ([] : LogState) 2 0 < 5) := by
      rw [show dictGetD ([] : LogState) 2 0 = 0 from rfl]
      simp only [sub_zero]
      exact not_lt.mpr ht
    have hstep1 : logStep 5 [] 2 t = (true, [(2, t)]) := by
      unfold logStep; rw [if_neg h1]; rfl
    have h2 : t + 2 - dictGetD [(2, t)] 2 0 < 5 := by
      rw [show dictGetD [(2, t)] 2 0 = t from rfl]
      linarith
    have hstep2 : logStep 5 [(2, t)] 2 (t + 2) = (false, [(2, t)]) := by
      unfold logStep; rw [if_pos h2]
    have h3 : ¬(t + 6 - dictGetD [(2, t)] 2 0 < 5) := by
      rw [show dictGetD [(2, t)] 2 0 = t from rfl]
      have e : t + 6 - t = 6 := by ring
      rw [e]; norm_num
    have hstep3 : logStep 5 [(2, t)] 2 (t + 6) = (true, dictInsert 2 (t + 6) [(2, t)]) := by
      unfold logStep; rw [if_neg h3]
    refine ⟨by rw [hstep1], ?_, ?_⟩
    · rw [hstep1]
      show (logStep 5 [(2, t)] 2 (t + 2)).1 = false
      rw [hstep2]
    · rw [hstep1]
      show (logStep 5 (logStep 5 [(2, t)] 2 (t + 2)).2 2 (t + 6)).1 = true
      rw [hstep2]
      show (logStep 5 [(2, t)] 2 (t + 6)).1 = true
      rw [hstep3]
  · intro cooldown calls pid
    cases hf : (runLogAux cooldown [] calls).filter (fun c => c.1 == pid) with
    | nil => simp
    | cons a l =>
      have h2 := runLog_chain_aux cooldown pid calls []
      rw [hf] at h2
      exact (List.chain'_cons.mp h2).2

/-- C5 witnessed at t = 10: accept, reject, accept for person 2 at
times 10, 12, 16 with cooldown 5. -/
theorem spec_C5_witness :
    (logStep 5 [] 2 10).1 = true ∧
    (logStep 5 (logStep 5 [] 2 10).2 2 (10 + 2)).1 = false ∧
    (logStep 5 (logStep 5 (logStep 5 [] 2 10).2 2 (10 + 2)).2 2 (10 + 6)).1 = true :=
  spec_C5.2.1 10 (by norm_num)

/-- C6 counterexample: with email alerts disabled but every condition
named by the claim satisfied (non-empty violations, host, sender
credentials and recipient present, cooldown elapsed), no send is
attempted: the claim's "if and only if" omits the enable-email gate. -/
theorem spec_C6_counterexample :
    (emailStep false [sampleViolation] "h" "u" "p" "r" 60 0 100 true).1 = false ∧
    ([sampleViolation] ≠ ([] : List Violation)) ∧
    ("h" ≠ "") ∧ ("u" ≠ "") ∧ ("p" ≠ "") ∧ ("r" ≠ "") ∧
    ((60 : Rat) ≤ 100 - 0) := by
  refine ⟨by decide, by decide, by decide, by decide, by decide, by decide, by decide⟩

lemma str_isEmpty_false {s : String} (h : s ≠ "") : s.isEmpty = false := by
  rcases hb : s.isEmpty with _ | _
  · rfl
  · exact absurd ((String.isEmpty_iff s).mp hb) h

/-- C6 amended: a send is attempted iff email alerts are enabled AND
the frame's violation list is non-empty AND host, sender credentials
and recipient are all present AND the global cooldown has elapsed;
`last_email_time` is overwritten with `now` only on a successful send,
so a failed or unattempted send leaves the throttle state unchanged
(allowing a retry on the next qualifying frame). -/
theorem spec_C6_amended :
    ∀ (enable_email : Bool) (violations : List Violation)
      (smtp_host smtp_user smtp_password recipient : String)
      (cooldown last_email_time now : Rat) (sendOk : Bool),
      ((emailStep enable_email violations smtp_host smtp_user smtp_password recipient
          cooldown last_email_time now sendOk).1 = true ↔
        (enable_email = true ∧ violations ≠ [] ∧ smtp_host ≠ "" ∧ smtp_user ≠ "" ∧
          smtp_password ≠ "" ∧ recipient ≠ "" ∧ cooldown ≤ now - last_email_time)) ∧
      ((emailStep enable_email violations smtp_host smtp_user smtp_password recipient
          cooldown last_email_time now sendOk).1 = true ∧ sendOk = true →
        (emailStep enable_email violations smtp_host smtp_user smtp_password recipient
          cooldown last_email_time now sendOk).2 = now) ∧
      (((emailStep enable_email violations smtp_host smtp_user smtp_password recipient
          cooldown last_email_time now sendOk).1 = false ∨ sendOk = false) →
        (emailStep enable_email violations smtp_host smtp_user smtp_password recipient
          cooldown last_email_time now sendOk).2 = last_email_time) := by
  intro e v h u pw r cd lt now so
  unfold emailStep
  by_cases hc : (e && !v.isEmpty && !h.isEmpty && !u.isEmpty && !pw.isEmpty && !r.isEmpty) = true
  · rw [if_pos hc]
    simp only [Bool.and_eq_true, Bool.not_eq_eq_eq_not, Bool.not_true, Bool.not_eq_true',
      List.isEmpty_eq_false] at hc
    obtain ⟨⟨⟨⟨⟨he, hv⟩, hh⟩, hu⟩, hpw⟩, hr⟩ := hc
    have hh2 : h ≠ "" := fun heq => by
      rw [heq] at hh; exact Bool.noConfusion hh
    have hu2 : u ≠ "" := fun heq => by
      rw [heq] at hu; exact Bool.noConfusion hu
    have hpw2 : pw ≠ "" := fun heq => by
      rw [heq] at hpw; exact Bool.noConfusion hpw
    have hr2 : r ≠ "" := fun heq => by
      rw [heq] at hr; exact Bool.noConfusion hr
    by_cases hcd : cd ≤ now - lt
    · rw [if_pos hcd]
      refine ⟨?_, ?_, ?_⟩
      · exact ⟨fun _ => ⟨he, hv, hh2, hu2, hpw2, hr2, hcd⟩, fun _ => rfl⟩
      · intro ⟨_, hso⟩
        simp [hso]
      · intro hor
        rcases hor with hf | hsf
        · exact absurd hf (by simp)
        · simp [hsf]
    · rw [if_neg hcd]
      refine ⟨?_, ?_, ?_⟩
      · constructor
        · intro hf; exact absurd hf (by simp)
        · intro hconj; exact absurd hconj.2.2.2.2.2.2 hcd
      · intro ⟨hf, _⟩; exact absurd hf (by simp)
      · intro _; rfl
  · rw [if_neg hc]
    refine ⟨?_, ?_, ?_⟩
    · constructor
      · intro hf; exact absurd hf (by simp)
      · intro hconj
        exfalso
        apply hc
        obtain ⟨he, hv, hh2, hu2, hpw2, hr2, _⟩ := hconj
        simp [he, hv, str_isEmpty_false hh2, str_isEmpty_false hu2,
          str_isEmpty_false hpw2, str_isEmpty_false hr2]
    · intro ⟨hf, _⟩; exact absurd hf (by simp)
    · intro _; rfl

/-- C6 amended, witnessed: enabled, one violation, full configuration,
cooldown elapsed, successful send at time 100 updates the throttle
timestamp to 100. -/
theorem spec_C6_witness :
    (emailStep true [sampleViolation] "h" "u" "p" "r" 60 0 100 true).2 = 100 :=
  (spec_C6_amended true [sampleViolation] "h" "u" "p" "r" 60 0 100 true).2.1
    ⟨by decide, rfl⟩

lemma bestLoopAux_nil (thresh : Rat) (pb : List Int) (acc : Rat × Option Int) :
    bestLoopAux thresh pb [] acc = acc := rfl

lemma bestLoopAux_cons (thresh : Rat) (pb : List Int) (x : Int × PInfo) (rest : PMap)
    (acc : Rat × Option Int) :
    bestLoopAux thresh pb (x :: rest) acc =
      bestLoopAux thresh pb rest
        (if acc.1 < iouOf pb x ∧ thresh ≤ iouOf pb x then (iouOf pb x, some x.1) else acc) :=
  rfl

lemma bestLoopAux_fst_mono (thresh : Rat) (pb : List Int) :
    ∀ (m : PMap) (acc : Rat × Option Int), acc.1 ≤ (bestLoopAux thresh pb m acc).1 := by
  intro m
  induction m with
  | nil => intro acc; exact le_refl _
  | cons x rest ih =>
    intro acc
    rw [bestLoopAux_cons]
    by_cases h : acc.1 < iouOf pb x ∧ thresh ≤ iouOf pb x
    · rw [if_pos h]
      exact le_trans (le_of_lt h.1) (ih (iouOf pb x, some x.1))
    · rw [if_neg h]
      exact ih acc

lemma bestLoopAux_le_fst (thresh : Rat) (pb : List Int) :
    ∀ (m : PMap) (acc : Rat × Option Int) (q : Int × PInfo), q ∈ m →
      thresh ≤ iouOf pb q → iouOf pb q ≤ (bestLoopAux thresh pb m acc).1 := by
  intro m
  induction m with
  | nil => intro acc q hq; intro _; simp at hq
  | cons x rest ih =>
    intro acc q hq hth
    rw [bestLoopAux_cons]
    rcases List.mem_cons.mp hq with heq | htl
    · subst heq
      by_cases h : acc.1 < iouOf pb q ∧ thresh ≤ iouOf pb q
      · rw [if_pos h]
        exact bestLoopAux_fst_mono thresh pb rest (iouOf pb q, some q.1)
      · rw [if_neg h]
        have hle : iouOf pb q ≤ acc.1 := by
          by_contra hlt
          exact h ⟨lt_of_not_le hlt, hth⟩
        exact le_trans hle (bestLoopAux_fst_mono thresh pb rest acc)
    · exact ih _ q htl hth

lemma bestLoopAux_cases (thresh : Rat) (pb : List Int) :
    ∀ (m : PMap) (acc : Rat × Option Int),
      bestLoopAux thresh pb m acc = acc ∨
      ∃ l1 p l2, m = l1 ++ p :: l2 ∧
        bestLoopAux thresh pb m acc = (iouOf pb p, some p.1) ∧
        acc.1 < iouOf pb p ∧ thresh ≤ iouOf pb p ∧
        ∀ q ∈ l1, iouOf pb q < iouOf pb p := by
  intro m
  induction m with
  | nil => intro acc; exact Or.inl rfl
  | cons x rest ih =>
    intro acc
    rw [bestLoopAux_cons]
    by_cases h : acc.1 < iouOf pb x ∧ thresh ≤ iouOf pb x
    · rw [if_pos h]
      rcases ih (iouOf pb x, some x.1) with h1 | ⟨l1, p, l2, hm, hres, hlt, hth, hall⟩
      · right
        refine ⟨[], x, rest, rfl, ?_, h.1, h.2, ?_⟩
        · rw [h1]
        · intro q hq; simp at hq
      · right
        refine ⟨x :: l1, p, l2, by rw [hm, List.cons_append], hres, ?_, hth, ?_⟩
        · exact lt_trans h.1 hlt
        · intro q hq
          rcases List.mem_cons.mp hq with heq | htl
          · exact heq ▸ hlt
          · exact hall q htl
    · rw [if_neg h]
      rcases ih acc with h1 | ⟨l1, p, l2, hm, hres, hlt, hth, hall⟩
      · exact Or.inl h1
      · right
        refine ⟨x :: l1, p, l2, by rw [hm, List.cons_append], hres, hlt, hth, ?_⟩
        intro q hq
        rcases List.mem_cons.mp hq with heq | htl
        · subst heq
          by_cases hx : acc.1 < iouOf pb q
          · have hnth : ¬ thresh ≤ iouOf pb q := fun ht2 => h ⟨hx, ht2⟩
            exact lt_of_lt_of_le (lt_of_not_le hnth) hth
          · exact lt_of_le_of_lt (le_of_not_lt hx) hlt
        · exact hall q htl

lemma bestLoopAux_isSome (thresh : Rat) (pb : List Int) :
    ∀ (m : PMap) (b : Rat) (j : Int),
      (bestLoopAux thresh pb m (b, some j)).2.isSome = true := by
  intro m
  induction m with
  | nil => intro b j; rfl
  | cons x rest ih =>
    intro b j
    rw [bestLoopAux_cons]
    by_cases h : (b, some j).1 < iouOf pb x ∧ thresh ≤ iouOf pb x
    · rw [if_pos h]
      exact ih (iouOf pb x) x.1
    · rw [if_neg h]
      exact ih b j

lemma bestLoop_complete (thresh : Rat) (pb : List Int) :
    ∀ (m : PMap) (b : Rat),
      (∃ q ∈ m, b < iouOf pb q ∧ thresh ≤ iouOf pb q) →
      (bestLoopAux thresh pb m (b, none)).2.isSome = true := by
  intro m
  induction m with
  | nil =>
    intro b hex
    obtain ⟨q, hq, _⟩ := hex
    simp at hq
  | cons x rest ih =>
    intro b hex
    rw [bestLoopAux_cons]
    by_cases h : ((b, (none : Option Int)).1 < iouOf pb x ∧ thresh ≤ iouOf pb x)
    · rw [if_pos h]
      exact bestLoopAux_isSome thresh pb rest (iouOf pb x) x.1
    · rw [if_neg h]
      obtain ⟨q, hq, hb, hth⟩ := hex
      rcases List.mem_cons.mp hq with heq | htl
      · exact absurd ⟨heq ▸ hb, heq ▸ hth⟩ h
      · exact ih b ⟨q, htl, hb, hth⟩

lemma assignPPE_of_some {thresh : Rat} {m : PMap} {e : Det} {idx : Int}
    (h : (bestLoop thresh (boxGet e) m).2 = some idx) :
    assignPPE thresh m e = appendPPE m idx e := by
  simp only [assignPPE]
  rw [h]

lemma assignPPE_of_none {thresh : Rat} {m : PMap} {e : Det}
    (h : (bestLoop thresh (boxGet e) m).2 = none) :
    assignPPE thresh m e =
      (match m.find? (fun p => containsPt (boxGet p.2.person) (center (boxGet e))) with
       | some p => appendPPE m p.1 e
       | none => m) := by
  simp only [assignPPE]
  rw [h]

/-- C3 counterexample: at `iou_thresh = 0`, a helmet disjoint from the
only person has IoU 0, which satisfies IoU ≥ threshold, yet the
equipment is assigned to nobody (the person's ppe list stays empty):
the running maximum starts at 0.0 and the update needs a strict
increase, so the claim's "greatest IoU provided IoU ≥ threshold" rule
does not describe the code at zero IoU. -/
theorem spec_C3_counterexample :
    iou (boxGet farPersonDet) (boxGet farHelmetDet) = 0 ∧
    match_ppe_to_person [farPersonDet, farHelmetDet] 0 = [(0, ⟨farPersonDet, []⟩)] := by
  constructor <;> decide

/-- C3 amended: per equipment detection, whenever some person has IoU
both ≥ `iou_thresh` and > 0, the equipment is appended to the first
person attaining the maximal IoU among qualifying persons — the
centroid-containment fallback is not consulted; when no person
qualifies (IoU ≥ threshold and > 0), the fallback assigns to the first
person whose box contains the equipment centroid, if any. -/
theorem spec_C3_amended :
    (∀ (iou_thresh : Rat) (m : PMap) (e : Det),
       (∃ q ∈ m, 0 < iouOf (boxGet e) q ∧ iou_thresh ≤ iouOf (boxGet e) q) →
       ∃ l1 p l2, m = l1 ++ p :: l2 ∧
         assignPPE iou_thresh m e = appendPPE m p.1 e ∧
         0 < iouOf (boxGet e) p ∧ iou_thresh ≤ iouOf (boxGet e) p ∧
         (∀ q ∈ m, iou_thresh ≤ iouOf (boxGet e) q →
           iouOf (boxGet e) q ≤ iouOf (boxGet e) p) ∧
         (∀ q ∈ l1, iouOf (boxGet e) q < iouOf (boxGet e) p)) ∧
    (∀ (iou_thresh : Rat) (m : PMap) (e : Det),
       (¬ ∃ q ∈ m, 0 < iouOf (boxGet e) q ∧ iou_thresh ≤ iouOf (boxGet e) q) →
       assignPPE iou_thresh m e =
         (match m.find? (fun p => containsPt (boxGet p.2.person) (center (boxGet e))) with
          | some p => appendPPE m p.1 e
          | none => m)) := by
  constructor
  · intro thresh m e hex
    have hsome := bestLoop_complete thresh (boxGet e) m 0 hex
    rcases bestLoopAux_cases thresh (boxGet e) m (0, none) with h1 | h2
    · exfalso
      unfold bestLoop at hsome
      rw [h1] at hsome
      exact Bool.noConfusion hsome
    · obtain ⟨l1, p, l2, hm, hres, hlt, hth, hall⟩ := h2
      have hres2 : (bestLoop thresh (boxGet e) m).2 = some p.1 := by
        unfold bestLoop; rw [hres]
      refine ⟨l1, p, l2, hm, assignPPE_of_some hres2, hlt, hth, ?_, hall⟩
      intro q hq hthq
      have hle := bestLoopAux_le_fst thresh (boxGet e) m (0, none) q hq hthq
      rw [hres] at hle
      exact hle
  · intro thresh m e hnex
    have hnone : (bestLoop thresh (boxGet e) m).2 = none := by
      unfold bestLoop
      rcases bestLoopAux_cases thresh (boxGet e) m (0, none) with h1 | h2
      · rw [h1]
      · obtain ⟨l1, p, l2, hm, hres, hlt, hth, _⟩ := h2
        exfalso
        apply hnex
        refine ⟨p, ?_, hlt, hth⟩
        rw [hm]
        exact List.mem_append_right _ (List.mem_cons_self _ _)
    exact assignPPE_of_none hnone

/-- C3 amended, witnessed: the end-to-end helmet against the single
person at threshold 0.12 (IoU 1/8) is assigned by the IoU rule. -/
theorem spec_C3_witness :
    ∃ l1 p l2, ([(0, (⟨personDet, []⟩ : PInfo))] : PMap) = l1 ++ p :: l2 ∧
      assignPPE (12/100) [(0, ⟨personDet, []⟩)] helmetDet =
        appendPPE [(0, ⟨personDet, []⟩)] p.1 helmetDet ∧
      0 < iouOf (boxGet helmetDet) p ∧ (12/100 : Rat) ≤ iouOf (boxGet helmetDet) p ∧
      (∀ q ∈ ([(0, (⟨personDet, []⟩ : PInfo))] : PMap),
        (12/100 : Rat) ≤ iouOf (boxGet helmetDet) q →
          iouOf (boxGet helmetDet) q ≤ iouOf (boxGet helmetDet) p) ∧
      (∀ q ∈ l1, iouOf (boxGet helmetDet) q < iouOf (boxGet helmetDet) p) :=
  spec_C3_amended.1 (12/100) [(0, ⟨personDet, []⟩)] helmetDet (by decide)
